import Mathlib

/-!
Verification of the sandboxed MCP filesystem server (`src/index.ts`).

The development shallowly embeds the program's two algorithmic cores — the
path sandbox validator (`validatePath` with its surrounding startup code)
and the fuzzy text-edit engine (`applyFileEdits` together with
`normalizeLineEndings`) — plus the `searchFiles` walker, the
`copy_file` / `copy_directory` / `move_file` handlers, and the module
startup sequence.  Strings are modelled as Lean `String` (a wrapper over
`List Char`), JavaScript exceptions as `Except String`, and each
`try`/`catch` block is translated literally: a thrown error that the
source's own `catch` swallows is swallowed in the model as well.
External primitives the code calls (`String.prototype.replace`,
`String.prototype.trim`, `path.normalize`, `path.dirname`, `minimatch`)
are embedded following their documented ECMAScript / Node.js / minimatch
semantics.
-/

namespace Mcp

/-! ## Character-level utilities shared by the embeddings -/

/-- Split a character list at every occurrence of the separator character,
the semantics of JavaScript `String.prototype.split` with a one-character
separator (used by `minimatch` to cut a path or pattern at `/`, and by the
edit engine to cut a buffer at newlines). -/
def splitCh (sep : Char) : List Char → List (List Char)
  | [] => [[]]
  | c :: rest =>
    if c = sep then [] :: splitCh sep rest
    else
      match splitCh sep rest with
      | [] => [[c]]
      | l :: ls => (c :: l) :: ls

theorem splitCh_ne_nil (sep : Char) (l : List Char) : splitCh sep l ≠ [] := by
  cases l with
  | nil => simp [splitCh]
  | cons c rest =>
    simp only [splitCh]
    by_cases h : c = sep
    · simp [h]
    · simp only [if_neg h]
      cases splitCh sep rest <;> simp

theorem splitCh_append (sep : Char) (x y : List Char) :
    splitCh sep (x ++ sep :: y) = splitCh sep x ++ splitCh sep y := by
  induction x with
  | nil => simp [splitCh]
  | cons c rest ih =>
    by_cases h : c = sep
    · simp [splitCh, h, ih]
    · simp only [List.cons_append, splitCh, if_neg h]
      have hne := splitCh_ne_nil sep rest
      cases hcase : splitCh sep rest with
      | nil => exact absurd hcase hne
      | cons l ls =>
        simp only [List.append_eq]
        rw [ih, hcase]
        simp

theorem splitCh_no_sep (sep : Char) (l : List Char) (h : sep ∉ l) :
    splitCh sep l = [l] := by
  induction l with
  | nil => simp [splitCh]
  | cons c rest ih =>
    simp only [List.mem_cons, not_or] at h
    have hc : ¬ c = sep := fun hc => h.1 hc.symm
    simp only [splitCh, if_neg hc, ih h.2]

/-- JavaScript `s.startsWith(pre)` (character-level, kernel-reducible). -/
def strStartsWith (s pre : String) : Bool := pre.data.isPrefixOf s.data

/-- JavaScript `s.endsWith(suf)`. -/
def strEndsWith (s suf : String) : Bool := suf.data.isSuffixOf s.data

/-- JavaScript `s.includes(c)` for one character. -/
def strContainsChar (s : String) (c : Char) : Bool := s.data.contains c

/-- The set of characters JavaScript treats as whitespace (`\s`, and the
set trimmed by `String.prototype.trim` / `trimStart`): WhiteSpace plus
LineTerminator per ECMA-262. -/
def jsWs (c : Char) : Bool :=
  c = ' ' || c = '\t' || c = '\n' || c = '\r' ||
  c = Char.ofNat 0x0b || c = Char.ofNat 0x0c ||
  c = Char.ofNat 0xa0 || c = Char.ofNat 0xfeff ||
  c = Char.ofNat 0x1680 || (0x2000 ≤ c.toNat && c.toNat ≤ 0x200a) ||
  c = Char.ofNat 0x2028 || c = Char.ofNat 0x2029 ||
  c = Char.ofNat 0x202f || c = Char.ofNat 0x205f || c = Char.ofNat 0x3000

/-- JavaScript `line.trim()`: remove leading and trailing whitespace. -/
def jsTrim (l : List Char) : List Char :=
  ((l.dropWhile jsWs).reverse.dropWhile jsWs).reverse

/-- JavaScript `line.match(/^\s*\x2f)?.[0] || ''`: the leading run of
whitespace of a line. -/
def leadingWs (l : List Char) : List Char := l.takeWhile jsWs

/-- JavaScript `line.trimStart()`. -/
def trimStartJs (l : List Char) : List Char := l.dropWhile jsWs

/-! ## JavaScript `String.prototype.replace` with a string search argument

`applyFileEdits` calls `modifiedContent.replace(normalizedOld, normalizedNew)`.
Per ECMA-262 this replaces the first occurrence of the search string, after
running the replacement string through `GetSubstitution`, which interprets
`$$`, `$&`, a dollar followed by the character 0x60, and a dollar followed
by the character 0x27 (with no capture groups, every other `$` sequence is
literal). -/

/-- First-occurrence split: `splitFirst pat s = some (b, a)` iff `pat`
occurs in `s` and `s = b ++ pat ++ a` with `b` shortest possible.  This is
JavaScript `s.indexOf(pat)` packaged with the surrounding pieces. -/
def splitFirst (search : List Char) : List Char → Option (List Char × List Char)
  | [] => if search.isPrefixOf [] then some ([], ([] : List Char).drop search.length) else none
  | c :: rest =>
    if search.isPrefixOf (c :: rest) then some ([], (c :: rest).drop search.length)
    else (splitFirst search rest).map (fun pr => (c :: pr.1, pr.2))

/-- JavaScript `s.includes(pat)`. -/
def hasSub (search s : List Char) : Bool := (splitFirst search s).isSome

/-- ECMA-262 `GetSubstitution` for a string-valued pattern (no capture
groups): expand `$$`, `$&`, dollar–0x60 (portion before the match) and
dollar–0x27 (portion after the match); any other `$` is literal. -/
def getSubst (matched before after : List Char) : List Char → List Char
  | [] => []
  | c :: rest =>
    if c = '$' then
      match rest with
      | [] => ['$']
      | d :: rest2 =>
        if d = '$' then '$' :: getSubst matched before after rest2
        else if d = '&' then matched ++ getSubst matched before after rest2
        else if d = Char.ofNat 0x60 then before ++ getSubst matched before after rest2
        else if d = Char.ofNat 0x27 then after ++ getSubst matched before after rest2
        else c :: getSubst matched before after (d :: rest2)
    else c :: getSubst matched before after rest

/-- JavaScript `s.replace(search, repl)` with string arguments: replace the
first occurrence of `search`, with `GetSubstitution` applied to `repl`;
return `s` unchanged when `search` does not occur. -/
def jsReplaceFirst (s search repl : List Char) : List Char :=
  match splitFirst search s with
  | none => s
  | some (b, a) => b ++ getSubst search b a repl ++ a

theorem prefix_drop_eq {search s : List Char} (hp : search.isPrefixOf s = true) :
    s = search ++ s.drop search.length := by
  obtain ⟨t, ht⟩ := List.isPrefixOf_iff_prefix.mp hp
  subst ht
  rw [List.drop_left]

theorem splitFirst_eq_append (search : List Char) :
    ∀ s b a : List Char, splitFirst search s = some (b, a) → s = b ++ search ++ a := by
  intro s
  induction s with
  | nil =>
    intro b a h
    simp only [splitFirst] at h
    cases search with
    | nil => simp_all
    | cons d ds => simp [List.isPrefixOf] at h
  | cons c rest ih =>
    intro b a h
    simp only [splitFirst] at h
    by_cases hp : search.isPrefixOf (c :: rest)
    · simp only [if_pos hp, Option.some.injEq, Prod.mk.injEq] at h
      obtain ⟨hb, ha⟩ := h
      subst hb; subst ha
      simpa using (prefix_drop_eq hp)
    · simp only [if_neg hp, Option.map_eq_some'] at h
      obtain ⟨⟨b0, a0⟩, hrec, heq⟩ := h
      simp only [Prod.mk.injEq] at heq
      obtain ⟨hb, ha⟩ := heq
      subst hb; subst ha
      simpa using ih b0 a0 hrec

theorem splitFirst_minimal (search : List Char) :
    ∀ s b a : List Char, splitFirst search s = some (b, a) →
      ∀ b' a', s = b' ++ search ++ a' → b.length ≤ b'.length := by
  intro s
  induction s with
  | nil =>
    intro b a h
    simp only [splitFirst] at h
    cases search with
    | nil => simp_all
    | cons d ds => simp [List.isPrefixOf] at h
  | cons c rest ih =>
    intro b a h
    simp only [splitFirst] at h
    by_cases hp : search.isPrefixOf (c :: rest)
    · simp only [if_pos hp, Option.some.injEq, Prod.mk.injEq] at h
      intro b' a' _
      simp [← h.1]
    · simp only [if_neg hp, Option.map_eq_some'] at h
      obtain ⟨⟨b0, a0⟩, hrec, heq⟩ := h
      simp only [Prod.mk.injEq] at heq
      obtain ⟨hb, ha⟩ := heq
      subst hb; subst ha
      intro b' a' hsplit
      cases b' with
      | nil =>
        exfalso
        apply hp
        apply List.isPrefixOf_iff_prefix.mpr
        exact ⟨a', by simpa using hsplit.symm⟩
      | cons c' b0' =>
        simp only [List.cons_append, List.cons.injEq] at hsplit
        have := ih b0 a0 hrec b0' a' hsplit.2
        simpa using this

theorem getSubst_no_dollar {matched before after repl : List Char}
    (h : '$' ∉ repl) : getSubst matched before after repl = repl := by
  induction repl with
  | nil => rfl
  | cons c rest ih =>
    simp only [List.mem_cons, not_or] at h
    have hc : ¬ c = '$' := fun hcc => h.1 hcc.symm
    conv_lhs => rw [getSubst.eq_def]
    simp only [if_neg hc]
    rw [ih h.2]

/-! ## Line-ending normalization and line splitting

`normalizeLineEndings` is `text.replace(/\r\n/g, '\n')`: one left-to-right
pass replacing every non-overlapping CRLF occurrence by LF; a lone CR is
copied unchanged. -/

/-- One left-to-right pass turning each CRLF into LF (`/\r\n/g`). -/
def normEol : List Char → List Char
  | [] => []
  | [c] => [c]
  | c1 :: c2 :: rest =>
    if c1 = '\r' ∧ c2 = '\n' then '\n' :: normEol rest
    else c1 :: normEol (c2 :: rest)

/-- `normalizeLineEndings` from the source, on `String`. -/
def normalizeLineEndings (text : String) : String := String.mk (normEol text.data)

/-- JavaScript `s.split('\n')` (note `"".split('\n')` is `[""]`). -/
def splitNl (l : List Char) : List (List Char) := splitCh '\n' l

/-- JavaScript `lines.join('\n')`. -/
def joinNl (ls : List (List Char)) : List Char := List.intercalate ['\n'] ls

theorem hasSub_cons (pat : List Char) (c : Char) (rest : List Char) :
    hasSub pat (c :: rest) = (pat.isPrefixOf (c :: rest) || hasSub pat rest) := by
  rw [hasSub, splitFirst]
  by_cases hp : pat.isPrefixOf (c :: rest)
  · simp [hp]
  · simp [hp, hasSub]

/-- A buffer containing no CRLF pair is left untouched by the
normalization pass; in particular every lone CR survives. -/
theorem normEol_no_crlf : ∀ l : List Char, hasSub ['\r', '\n'] l = false → normEol l = l := by
  intro l
  induction l with
  | nil => intro _; rfl
  | cons c rest ih =>
    intro h
    rw [hasSub_cons, Bool.or_eq_false_iff] at h
    obtain ⟨hpre, hrest⟩ := h
    cases rest with
    | nil => simp only [normEol]
    | cons c2 rest2 =>
      simp only [normEol]
      have hcond : ¬ (c = '\r' ∧ c2 = '\n') := by
        rintro ⟨rfl, rfl⟩
        simp [List.isPrefixOf] at hpre
      rw [if_neg hcond, ih hrest]

/-! ## The fuzzy text-edit engine (`applyFileEdits`)

Faithful translation of `applyFileEdits` from `src/index.ts` lines
282-358.  The unified-diff rendering delegates to the external `diff`
package, modelled as an arbitrary function parameter `patch`; the
fenced-block wrapper and the persistence logic are translated exactly. -/

/-- One `{oldText, newText}` element of the `edits` array. -/
structure EditOp where
  oldText : String
  newText : String
  deriving DecidableEq

/-- The JavaScript loop `for (let i = 0; i <= bound; i++) { if (p i) ... }`:
first index `≥ i` satisfying `p`, trying `fuel` candidates. -/
def findFrom (p : Nat → Bool) : Nat → Nat → Option Nat
  | _, 0 => none
  | i, fuel + 1 => if p i then some i else findFrom p (i + 1) fuel

/-- `oldLines.every((oldLine, j) => oldLine.trim() === potentialMatch[j].trim())`. -/
def lineMatch (oldLines window : List (List Char)) : Bool :=
  (oldLines.zip window).all fun pr => jsTrim pr.1 == jsTrim pr.2

/-- `contentLines.slice(i, i + len)`. -/
def winAt (contentLines : List (List Char)) (i len : Nat) : List (List Char) :=
  (contentLines.drop i).take len

/-- The window-scanning loop of `applyFileEdits`: the lowest starting index
whose window matches the search block line by line (with trimming); `none`
when no window matches (also when the search block is longer than the
buffer, where the JavaScript loop bound is negative and never runs). -/
def findMatch (oldLines contentLines : List (List Char)) : Option Nat :=
  if oldLines.length ≤ contentLines.length then
    findFrom (fun i => lineMatch oldLines (winAt contentLines i oldLines.length)) 0
      (contentLines.length - oldLines.length + 1)
  else none

/-- The body of `normalizedNew.split('\n').map((line, j) => ...)`: line 0
gets the captured indentation; a later line gets the captured indentation
plus the (floored) leading-whitespace-length delta when both the
corresponding search line and the line have leading whitespace
(JavaScript truthiness: the empty string is falsy), else it is unchanged.
`oldLines[j]?` past the end yields the empty indentation. -/
def reindentLine (originalIndent : List Char) (oldLines : List (List Char))
    (j : Nat) (line : List Char) : List Char :=
  if j = 0 then originalIndent ++ trimStartJs line
  else
    let oldIndent := leadingWs (oldLines.getD j [])
    let newIndent := leadingWs line
    if oldIndent ≠ [] ∧ newIndent ≠ [] then
      originalIndent ++ List.replicate (newIndent.length - oldIndent.length) ' ' ++ trimStartJs line
    else line

/-- Index-carrying map implementing `.map((line, j) => ...)`. -/
def reindentAux (originalIndent : List Char) (oldLines : List (List Char)) :
    Nat → List (List Char) → List (List Char)
  | _, [] => []
  | j, line :: rest =>
    reindentLine originalIndent oldLines j line :: reindentAux originalIndent oldLines (j + 1) rest

/-- The re-indented replacement lines (`newLines` in the source). -/
def reindent (originalIndent : List Char) (oldLines newSrc : List (List Char)) :
    List (List Char) :=
  reindentAux originalIndent oldLines 0 newSrc

/-- One iteration of the `for (const edit of edits)` loop: exact substring
replacement if the normalized search text occurs, otherwise the
whitespace-tolerant line-block strategy with splice; `none` when neither
strategy matches. -/
def applyEdit (buf : List Char) (edit : EditOp) : Option (List Char) :=
  let normalizedOld := normEol edit.oldText.data
  let normalizedNew := normEol edit.newText.data
  if hasSub normalizedOld buf then
    some (jsReplaceFirst buf normalizedOld normalizedNew)
  else
    let oldLines := splitNl normalizedOld
    let contentLines := splitNl buf
    match findMatch oldLines contentLines with
    | none => none
    | some i =>
      let originalIndent := leadingWs (contentLines.getD i [])
      let newLines := reindent originalIndent oldLines (splitNl normalizedNew)
      some (joinNl (contentLines.take i ++ newLines ++ contentLines.drop (i + oldLines.length)))

/-- The error thrown when neither strategy matches, naming the edit's raw
search text exactly as the source interpolates `edit.oldText`. -/
def editNotFoundMsg (e : EditOp) : String :=
  "No se pudo encontrar una coincidencia exacta para la edición:\n" ++ e.oldText

/-- The sequential edit loop threading one evolving buffer; the first
failing edit aborts with its error and later edits are never examined. -/
def applyEditsLoop : List Char → List EditOp → Except String (List Char)
  | buf, [] => .ok buf
  | buf, e :: rest =>
    match applyEdit buf e with
    | some buf2 => applyEditsLoop buf2 rest
    | none => .error (editNotFoundMsg e)

/-- The fence character (0x60) used for the diff wrapper. -/
def backtickChar : Char := Char.ofNat 0x60

/-- `let numBackticks = 3; while (diff.includes(fence)) numBackticks++`:
the least run length, starting at 3, not occurring in the diff (the search
is bounded because a run longer than the diff cannot occur in it). -/
def fenceLen (diff : List Char) : Nat :=
  (((List.range (diff.length + 2)).map (· + 3)).find?
    (fun n => !(hasSub (List.replicate n backtickChar) diff))).getD (diff.length + 3)

/-- The formatted diff block returned by `applyFileEdits`. -/
def fenceWrap (diff : String) : String :=
  let n := fenceLen diff.data
  String.mk (List.replicate n backtickChar) ++ "diff\n" ++ diff ++
    String.mk (List.replicate n backtickChar) ++ "\n\n"

deriving instance DecidableEq for Except

/-- Observable outcome of one `applyFileEdits` call: the file content on
disk afterwards, the returned/raised value, and whether `fs.writeFile`
executed. -/
structure EditOutcome where
  newDisk : String
  response : Except String String
  wrote : Bool
  deriving DecidableEq

/-- `applyFileEdits(filePath, edits, dryRun)`: read the file and normalize
line endings, run the edit loop, render the unified diff (`patch` stands
for the external `createTwoFilesPatch`; `createUnifiedDiff` normalizes both
sides again before calling it), and write the modified content back unless
`dryRun`.  A loop error propagates to the caller and nothing is written. -/
def applyFileEdits (patch : String → String → String) (disk : String)
    (edits : List EditOp) (dryRun : Bool) : EditOutcome :=
  let content := normEol disk.data
  match applyEditsLoop content edits with
  | .error e => ⟨disk, .error e, false⟩
  | .ok modifiedContent =>
    let diff := patch (String.mk (normEol content)) (String.mk (normEol modifiedContent))
    let formatted := fenceWrap diff
    if dryRun then ⟨disk, .ok formatted, false⟩
    else ⟨String.mk modifiedContent, .ok formatted, true⟩

/-! ## Node `path` primitives (posix) used by the validator

`path.normalize`, `path.resolve`, `path.join`, `path.dirname` following the
Node.js posix implementations, on `/`-separated segment lists. -/

/-- One step of Node's `normalizeString`: skip empty and `.` segments,
resolve `..` against the accumulated stack (kept when `allowAboveRoot`
and there is nothing to pop). -/
def normStep (allowAboveRoot : Bool) (acc : List (List Char)) (seg : List Char) :
    List (List Char) :=
  if seg = [] ∨ seg = ['.'] then acc
  else if seg = ['.', '.'] then
    if acc ≠ [] ∧ acc.getLast? ≠ some ['.', '.'] then acc.dropLast
    else if allowAboveRoot then acc ++ [seg] else acc
  else acc ++ [seg]

/-- Node's `normalizeString(path, allowAboveRoot)` over split segments. -/
def normalizeSegs (allowAboveRoot : Bool) (segs : List (List Char)) : List (List Char) :=
  segs.foldl (normStep allowAboveRoot) []

/-- Node `path.posix.normalize` (the source's `normalizePath` wraps it). -/
def normalizePath (p : String) : String :=
  if p.data = [] then "."
  else
    let abs := strStartsWith p "/"
    let trailing := strEndsWith p "/"
    let core := normalizeSegs (!abs) (splitCh '/' p.data)
    let body := List.intercalate ['/'] core
    let body1 := if body = [] ∧ !abs then ['.'] else body
    let body2 := if body1 ≠ [] ∧ trailing then body1 ++ ['/'] else body1
    if abs then String.mk ('/' :: body2) else String.mk body2

/-- Node `path.posix.dirname`. -/
def dirname (p : String) : String :=
  match p.data with
  | [] => "."
  | c0 :: rest =>
    let hasRoot := c0 = '/'
    let afterSeg := (rest.reverse.dropWhile (fun c => c = '/')).dropWhile (fun c => c ≠ '/')
    if afterSeg.length = 0 then (if hasRoot then "/" else ".")
    else if hasRoot ∧ afterSeg.length = 1 then "//"
    else String.mk (p.data.take afterSeg.length)

/-- Node `path.posix.join` of two parts. -/
def pathJoin (a b : String) : String :=
  let parts := [a, b].filter (fun s => s ≠ "")
  if parts = [] then "." else normalizePath (String.intercalate "/" parts)

/-- Node `path.posix.resolve`, with the working directory supplied
explicitly (covers both `path.resolve(p)` for absolute `p` and
`path.resolve(cwd, p)`). -/
def pathResolve (cwd p : String) : String :=
  let combined := if strStartsWith p "/" then p else cwd ++ "/" ++ p
  let abs := strStartsWith combined "/"
  let core := normalizeSegs (!abs) (splitCh '/' combined.data)
  let body := List.intercalate ['/'] core
  if abs then String.mk ('/' :: body)
  else if body = [] then "." else String.mk body

/-- `expandHome` from the source: expand a leading `~/` (or a bare `~`)
to the home directory via `path.join(os.homedir(), filepath.slice(1))`. -/
def expandHome (home filepath : String) : String :=
  if strStartsWith filepath "~/" || filepath = "~" then
    pathJoin home (String.mk (filepath.data.drop 1))
  else filepath

/-- The `absolute` computed at the top of `validatePath`:
`path.isAbsolute(expanded) ? path.resolve(expanded)
: path.resolve(process.cwd(), expanded)`. -/
def absoluteOf (home cwd requestedPath : String) : String :=
  pathResolve cwd (expandHome home requestedPath)

/-! ## The path sandbox validator (`validatePath`, lines 62-100)

The filesystem is abstracted by its `fs.realpath` behaviour: `some r`
when resolution succeeds with real path `r`, `none` when it rejects
(target missing or unreadable).  The two `try`/`catch` blocks are
translated literally.  In particular the `Acceso denegado - destino del
enlace simbólico ...` throw at line 82 sits inside the `try` whose `catch`
(line 85) handles it, and the `Acceso denegado - directorio padre ...`
throw at line 93 sits inside the inner `try` whose `catch` (line 96)
converts it to the `El directorio padre no existe` error; neither of the
two access-denial errors can escape those blocks. -/

/-- The filesystem as seen through `fs.realpath`. -/
structure SymFS where
  realpath : String → Option String

/-- `validatePath(requestedPath)` for a fixed `allowedDirectories`,
home directory and working directory. -/
def validatePath (allowed : List String) (fs : SymFS) (home cwd : String)
    (requestedPath : String) : Except String String :=
  let absolute := absoluteOf home cwd requestedPath
  let normalizedRequested := normalizePath absolute
  if !(allowed.any fun dir => strStartsWith normalizedRequested dir) then
    .error ("Acceso denegado - ruta fuera de los directorios permitidos: " ++ absolute ++
      " no está en " ++ String.intercalate ", " allowed)
  else
    let tryBody : Except String String :=
      match fs.realpath absolute with
      | none => .error "ENOENT"
      | some realPath =>
        if allowed.any fun dir => strStartsWith (normalizePath realPath) dir then .ok realPath
        else .error "Acceso denegado - destino del enlace simbólico fuera de los directorios permitidos"
    match tryBody with
    | .ok r => .ok r
    | .error _ =>
      let parentDir := dirname absolute
      let innerTry : Except String String :=
        match fs.realpath parentDir with
        | none => .error "ENOENT"
        | some realParentPath =>
          if allowed.any fun dir => strStartsWith (normalizePath realParentPath) dir then .ok absolute
          else .error "Acceso denegado - directorio padre fuera de los directorios permitidos"
      match innerTry with
      | .ok r => .ok r
      | .error _ => .error ("El directorio padre no existe: " ++ parentDir)

/-! ## Module startup (lines 20-59) -/

/-- Outcome of module initialization: immediate `process.exit(1)` on an
empty argument list, or a running server with its `allowedDirectories`. -/
inductive StartupResult where
  | usageExit : StartupResult
  | started : List String → StartupResult
  deriving DecidableEq

/-- The top-level startup sequence: exit with usage on no arguments,
otherwise compute `allowedDirectories` and start.  Lines 46-59 only
*define* an `async () => {...}` arrow function value and never invoke it,
so the directory-existence validation never runs: startup never consults
the filesystem, which is why `moduleInit` takes no `stat` parameter. -/
def moduleInit (home cwd : String) (args : List String) : StartupResult :=
  if args.isEmpty then .usageExit
  else .started (args.map fun dir => normalizePath (pathResolve cwd (expandHome home dir)))

/-- The body of the never-invoked validation arrow (lines 46-59): `true`
iff, had it been called, it would have hit `process.exit(1)` — some
argument that `fs.stat` rejects or that is not a directory.  `stat` maps a
path to `some isDirectory` on success and `none` on failure. -/
def startupValidationBody (home : String) (stat : String → Option Bool)
    (args : List String) : Bool :=
  args.any fun dir =>
    match stat (expandHome home dir) with
    | none => true
    | some isDir => !isDir

/-! ## The `move_file`, `copy_file`, `copy_directory` handlers

Translated from the `CallTool` handler (lines 678-796), starting after
both paths passed `validatePath`.  The filesystem is abstracted by
`stat : String → Option Bool` (`some isDirectory` on success, `none` when
the path does not exist; `fs.access` succeeds exactly when `stat` does).
Performed mutations are recorded as an effect list.  The two
`try { await fs.access(dest); throw AlreadyExists } catch { }` blocks are
translated literally: whether `fs.access` rejects or the handler's own
`El destino ya existe` error is thrown, the surrounding `catch` swallows
it and execution continues either way. -/

/-- Filesystem view for the handlers. -/
structure NodeFS where
  stat : String → Option Bool

/-- A filesystem mutation performed by a handler. -/
inductive FsEffect where
  | copyFile : String → String → FsEffect
  | rename : String → String → FsEffect
  | utimes : String → FsEffect
  | chmod : String → FsEffect
  | copyDir : String → String → Bool → FsEffect
  deriving DecidableEq

/-- The `copy_file` handler body (lines 719-762) after path validation. -/
def copyFileHandler (fs : NodeFS) (src dst : String) : Except String (List FsEffect) :=
  let srcAccess : Except String Unit :=
    match fs.stat src with
    | some _ => .ok ()
    | none => .error "ENOENT"
  match srcAccess with
  | .error _ => .error ("El archivo de origen no existe o no es accesible: " ++ src)
  | .ok _ =>
    let dstTry : Except String Unit :=
      match fs.stat dst with
      | some _ => .error ("El destino ya existe: " ++ dst)
      | none => .error "ENOENT"
    match dstTry with
    | _ =>
      match fs.stat src with
      | none => .error "ENOENT"
      | some isDir =>
        if isDir then
          .error ("La fuente es un directorio. Use copy_directory en su lugar: " ++ src)
        else .ok [FsEffect.copyFile src dst, FsEffect.utimes dst, FsEffect.chmod dst]

/-- The `move_file` handler body (lines 678-689) after path validation:
a bare `fs.rename(source, destination)` with no destination check (POSIX
`rename` silently replaces an existing destination file). -/
def moveFileHandler (src dst : String) : Except String (List FsEffect) :=
  .ok [FsEffect.rename src dst]

/-- The `copy_directory` handler body (lines 764-796) after path
validation.  The `La fuente no es un directorio` throw sits inside the
`try` whose own `catch` replaces it by the source-missing error. -/
def copyDirectoryHandler (fs : NodeFS) (src dst : String) (recursive : Bool) :
    Except String (List FsEffect) :=
  let srcTry : Except String Unit :=
    match fs.stat src with
    | none => .error "ENOENT"
    | some isDir => if !isDir then .error ("La fuente no es un directorio: " ++ src) else .ok ()
  match srcTry with
  | .error _ => .error ("El directorio de origen no existe o no es accesible: " ++ src)
  | .ok _ =>
    let dstTry : Except String Unit :=
      match fs.stat dst with
      | some _ => .error ("El destino ya existe: " ++ dst)
      | none => .error "ENOENT"
    match dstTry with
    | _ => .ok [FsEffect.copyDir src dst recursive]

/-! ## `minimatch` and the `searchFiles` walker (lines 216-260)

`searchFiles` tests each entry's root-relative path against every exclude
pattern via `minimatch(relativePath, globPattern, { dot: true })`, where
`globPattern` is the pattern itself when it contains a `*` and
`**/<pattern>/**` otherwise.  `minimatch` splits pattern and path on `/`
and walks the segments (`matchOne`); with `dot: true` the dot-file checks
are disabled.  The patterns exercised here contain no braces or extglobs,
so a pattern segment is either the globstar `**` or a one-segment glob
(literal characters, `*`, `?`). -/

/-- Star expansion: try the rest of the matcher on every suffix of the
input obtained by letting `*` swallow zero or more characters. -/
def globStar (matchRest : List Char → Bool) : List Char → Bool
  | [] => matchRest []
  | c :: s2 => matchRest (c :: s2) || globStar matchRest s2

/-- One-segment glob match (`*` any run, `?` one character, else literal),
the `minimatch` per-segment regular expression. -/
def globSeg : List Char → List Char → Bool
  | [], s => s.isEmpty
  | '*' :: ps, s => globStar (globSeg ps) s
  | '?' :: ps, s =>
    (match s with
     | [] => false
     | _ :: s2 => globSeg ps s2)
  | p :: ps, s =>
    (match s with
     | [] => false
     | c :: s2 => (p = c) && globSeg ps s2)

/-- The globstar swallow loop of `minimatch.matchOne`: try the rest of the
pattern on every nonempty suffix of the remaining file segments (the loop
runs `fr` from the current position while `fr < fl`). -/
def matchStarSegs (matchRest : List (List Char) → Bool) : List (List Char) → Bool
  | [] => false
  | f :: fs => matchRest (f :: fs) || matchStarSegs matchRest fs

/-- `minimatch`'s `matchOne` over segments with `dot: true`: a globstar
followed by more pattern lets the swallow loop try every nonempty suffix;
a final globstar consumes the whole (nonempty) remainder; running out of
file with pattern left fails (`partial` is false); running out of pattern
with file left succeeds only on a single trailing empty segment. -/
def matchOne : List (List Char) → List (List Char) → Bool
  | [], [] => true
  | [], f :: fs => f.isEmpty && fs.isEmpty
  | _ :: _, [] => false
  | p :: ps, f :: fs =>
    if p = ['*', '*'] then
      match ps with
      | [] => true
      | _ :: _ => matchStarSegs (matchOne ps) (f :: fs)
    else globSeg p f && matchOne ps fs

/-- `minimatch(path, pattern, { dot: true })` for slash-separated,
brace-free patterns. -/
def minimatchDot (path pattern : String) : Bool :=
  matchOne (splitCh '/' pattern.data) (splitCh '/' path.data)

/-- The glob pattern actually used for one exclude pattern:
`pattern.includes('*') ? pattern : `**/${pattern}/**``. -/
def globPatternOf (pattern : String) : String :=
  if strContainsChar pattern '*' then pattern else "**/" ++ pattern ++ "/**"

/-- `excludePatterns.some(pattern => minimatch(relativePath, globPattern,
{ dot: true }))`. -/
def shouldExclude (excludePatterns : List String) (relativePath : String) : Bool :=
  excludePatterns.any fun pattern => minimatchDot relativePath (globPatternOf pattern)

/-- A directory tree: the walker's view of the filesystem below the
search root. -/
inductive FsTree where
  | file : String → FsTree
  | dir : String → List FsTree → FsTree

/-- The entry's `entry.name`. -/
def entryName : FsTree → String
  | .file n => n
  | .dir n _ => n

/-- `entry.name.toLowerCase().includes(pattern.toLowerCase())` (ASCII
lowering, as in JavaScript for the ASCII range). -/
def nameMatches (pattern name : String) : Bool :=
  hasSub (pattern.data.map Char.toLower) (name.data.map Char.toLower)

/-- The relative path of a child entry: `path.relative(rootPath, fullPath)`
composes as `rel + '/' + name` below the first level. -/
def childRel (rel name : String) : String :=
  if rel = "" then name else rel ++ "/" ++ name

mutual

/-- One entry of the `searchFiles` loop: validate the full path (a
rejection skips the entry), test the exclusion patterns (a match skips
the entry and prevents recursion), record a case-insensitive name hit,
then recurse into directories; `valid` abstracts the outcome of the
`validatePath` call for each full path. -/
def walkEntry (valid : String → Bool) (pattern : String) (excl : List String) :
    FsTree → String → String → List String
  | t, fullPath, rel =>
    if !valid fullPath then []
    else if shouldExclude excl rel then []
    else
      let hits := if nameMatches pattern (entryName t) then [fullPath] else []
      match t with
      | .file _ => hits
      | .dir _ children => hits ++ walkChildren valid pattern excl children fullPath rel

/-- The `for (const entry of entries)` loop over a directory's children. -/
def walkChildren (valid : String → Bool) (pattern : String) (excl : List String) :
    List FsTree → String → String → List String
  | [], _, _ => []
  | t :: rest, dirPath, dirRel =>
    walkEntry valid pattern excl t (dirPath ++ "/" ++ entryName t) (childRel dirRel (entryName t)) ++
      walkChildren valid pattern excl rest dirPath dirRel
end

/-- `searchFiles(rootPath, pattern, excludePatterns)` on a modelled tree:
the recursion starts at the validated root's children with empty relative
prefix. -/
def searchFiles (valid : String → Bool) (rootPath : String) (pattern : String)
    (excl : List String) (rootChildren : List FsTree) : List String :=
  walkChildren valid pattern excl rootChildren rootPath ""

/-! ## Claim C1-C4 theorems -/

/-- Concrete filesystem for C1: `/sandbox/link` is a symlink inside the
allowed root whose real target `/outside/secret` lies outside it. -/
def fsC1 : SymFS :=
  ⟨fun p =>
    if p = "/sandbox/link" then some "/outside/secret"
    else if p = "/sandbox" then some "/sandbox" else none⟩

/-- C1: the claim says a request for an existing path whose resolved real
path lies outside every allowed root fails with `AccessDenied`.  The code
instead *grants* access: the symlink-denial throw at line 82 sits inside
the `try` whose own `catch` (line 85) swallows it, after which the parent
directory (inside the root) passes containment and the literal path is
returned.  With allowed root `/sandbox` and `/sandbox/link` resolving to
`/outside/secret`, `validatePath` succeeds. -/
theorem C1_symlink_escape_admitted :
    validatePath ["/sandbox"] fsC1 "/root" "/" "/sandbox/link" = .ok "/sandbox/link" ∧
    fsC1.realpath "/sandbox/link" = some "/outside/secret" ∧
    strStartsWith "/outside/secret" "/sandbox" = false := by
  refine ⟨by decide, by decide, by decide⟩

/-- Concrete filesystem for C2: `/a/bc` exists and is its own real path. -/
def fsC2 : SymFS := ⟨fun p => if p = "/a/bc" then some "/a/bc" else none⟩

/-- C2 counterexample: with allowed root `/a/b`, the sibling `/a/bc`
(outside the root: its segments do not extend the root's segments) passes
the `startsWith` containment checks and validation *succeeds*, contrary to
the claim that it fails with `AccessDenied`. -/
theorem C2_counterexample :
    validatePath ["/a/b"] fsC2 "/root" "/" "/a/bc" = .ok "/a/bc" ∧
    List.isPrefixOf (splitCh '/' "/a/b".data) (splitCh '/' "/a/bc".data) = false := by
  refine ⟨by decide, by decide⟩

/-- C2 amended: when the normalized absolute form of the request extends
no allowed root *as a character prefix*, `validatePath` fails with the
`Acceso denegado` error of containment check #1.  (The boundary case
`/a/bc` under allowed `/a/b` does satisfy the character-prefix test and is
admitted, per `C2_counterexample`.) -/
theorem C2_amended (allowed : List String) (fs : SymFS) (home cwd p : String)
    (h : ∀ d ∈ allowed, strStartsWith (normalizePath (absoluteOf home cwd p)) d = false) :
    validatePath allowed fs home cwd p =
      .error ("Acceso denegado - ruta fuera de los directorios permitidos: " ++
        absoluteOf home cwd p ++ " no está en " ++ String.intercalate ", " allowed) := by
  have hany : (allowed.any fun dir => strStartsWith (normalizePath (absoluteOf home cwd p)) dir) = false := by
    rw [List.any_eq_false]
    intro d hd
    simp [h d hd]
  simp [validatePath, hany]

/-- Witness for `C2_amended` at a concrete instance. -/
theorem C2_amended_witness :
    validatePath ["/a/b"] ⟨fun _ => none⟩ "/root" "/" "/x/y" =
      .error "Acceso denegado - ruta fuera de los directorios permitidos: /x/y no está en /a/b" := by
  have h := C2_amended ["/a/b"] ⟨fun _ => none⟩ "/root" "/" "/x/y" (by decide)
  rw [h]
  decide

/-- Concrete filesystem for C3: regular files `/s/a` and `/s/b` and
directories `/s/d1` and `/s/d2` all exist. -/
def fsC3 : NodeFS :=
  ⟨fun p =>
    if p = "/s/a" then some false
    else if p = "/s/b" then some false
    else if p = "/s/d1" then some true
    else if p = "/s/d2" then some true else none⟩

/-- C3: the claim says `move_file`, `copy_file` and `copy_directory` fail
with `AlreadyExists` and mutate nothing when the destination exists.  In
the code the `El destino ya existe` throw of both copy handlers sits
inside the `try` whose own `catch` swallows it (lines 735-740, 783-788),
and `move_file` performs a bare `fs.rename` with no destination check
(line 685), which on POSIX replaces an existing destination file.  With
every destination existing, all three handlers succeed and perform their
mutation. -/
theorem C3_destination_overwrite :
    copyFileHandler fsC3 "/s/a" "/s/b" =
      .ok [FsEffect.copyFile "/s/a" "/s/b", FsEffect.utimes "/s/b", FsEffect.chmod "/s/b"] ∧
    fsC3.stat "/s/b" = some false ∧
    copyDirectoryHandler fsC3 "/s/d1" "/s/d2" true = .ok [FsEffect.copyDir "/s/d1" "/s/d2" true] ∧
    fsC3.stat "/s/d2" = some true ∧
    moveFileHandler "/s/a" "/s/b" = .ok [FsEffect.rename "/s/a" "/s/b"] := by
  refine ⟨by decide, by decide, by decide, by decide, by decide⟩

/-- C4: the claim says startup refuses to run when a configured directory
is missing or not a directory.  The validation code (lines 46-59) is an
`async () => {...}` arrow-function *expression statement* that is never
invoked, so the process starts regardless: `moduleInit` starts the server
for the missing directory `/nonexistent`, while the never-executed
validation body would have exited. -/
theorem C4_startup_validation_never_runs :
    moduleInit "/root" "/" ["/nonexistent"] = .started ["/nonexistent"] ∧
    startupValidationBody "/root" (fun _ => none) ["/nonexistent"] = true := by
  refine ⟨by decide, by decide⟩

/-! ## Claim C5, C7, C9 theorems -/

/-- C5: if an edit matches by neither strategy, the loop aborts with the
`EditNotFound` error naming that edit's raw search text and later edits
are never examined (first conjunct); a loop error leaves the disk
untouched and nothing is written (second); `dryRun = true` never mutates
(third); and the file is written exactly when every edit succeeds and
`dryRun` is false (fourth). -/
theorem C5_edit_failure_and_persistence :
    (∀ (buf : List Char) (e : EditOp) (rest : List EditOp), applyEdit buf e = none →
        applyEditsLoop buf (e :: rest) = .error (editNotFoundMsg e))
    ∧ (∀ (patch : String → String → String) (disk : String) (edits : List EditOp)
        (dryRun : Bool) (err : String),
        applyEditsLoop (normEol disk.data) edits = .error err →
        applyFileEdits patch disk edits dryRun = ⟨disk, .error err, false⟩)
    ∧ (∀ (patch : String → String → String) (disk : String) (edits : List EditOp),
        (applyFileEdits patch disk edits true).newDisk = disk ∧
        (applyFileEdits patch disk edits true).wrote = false)
    ∧ (∀ (patch : String → String → String) (disk : String) (edits : List EditOp) (dryRun : Bool),
        (applyFileEdits patch disk edits dryRun).wrote = true ↔
          ((∃ buf, applyEditsLoop (normEol disk.data) edits = .ok buf) ∧ dryRun = false)) := by
  refine ⟨?_, ?_, ?_, ?_⟩
  · intro buf e rest h
    simp [applyEditsLoop, h]
  · intro patch disk edits dryRun err h
    simp [applyFileEdits, h]
  · intro patch disk edits
    cases hcase : applyEditsLoop (normEol disk.data) edits with
    | error e => simp [applyFileEdits, hcase]
    | ok buf => simp [applyFileEdits, hcase]
  · intro patch disk edits dryRun
    cases hcase : applyEditsLoop (normEol disk.data) edits with
    | error e => simp [applyFileEdits, hcase]
    | ok buf =>
      cases dryRun with
      | false => simp [applyFileEdits, hcase]
      | true => simp [applyFileEdits, hcase]

/-- Witness for `C5_edit_failure_and_persistence`: on buffer `x` the edit
searching for `y` fails, the loop reports it (the following edit, which
would succeed, is never attempted), and the disk keeps its content with
nothing written. -/
theorem C5_edit_failure_and_persistence_witness :
    applyEditsLoop "x".data [⟨"y", "z"⟩, ⟨"x", "q"⟩] = .error (editNotFoundMsg ⟨"y", "z"⟩) ∧
    applyFileEdits (fun _ _ => "") "x" [⟨"y", "z"⟩, ⟨"x", "q"⟩] false =
      ⟨"x", .error (editNotFoundMsg ⟨"y", "z"⟩), false⟩ :=
  ⟨C5_edit_failure_and_persistence.1 "x".data ⟨"y", "z"⟩ [⟨"x", "q"⟩] (by decide),
   C5_edit_failure_and_persistence.2.1 (fun _ _ => "") "x" [⟨"y", "z"⟩, ⟨"x", "q"⟩] false
     (editNotFoundMsg ⟨"y", "z"⟩) (by decide)⟩

/-- C7 counterexample: the claim promises the replaced region equals the
replacement text for *every* replacement text, but `String.prototype
.replace` interprets `$&` in the replacement: replacing `a` by the four
characters dollar-ampersand-dollar-ampersand in `ab` yields `aab`, not the
claimed four-character insertion. -/
theorem C7_counterexample :
    applyEdit "ab".data ⟨"a", "$&$&"⟩ = some ("aab".data) ∧
    "aab".data ≠ "$&$&b".data := by
  refine ⟨by decide, by decide⟩

/-- C7 amended: for a normalized search text occurring in the buffer and a
replacement text containing no `$`, the exact-substring strategy replaces
exactly the first occurrence: the buffer splits as `pre ++ search ++ post`
with `pre` shortest, and the result is `pre ++ repl ++ post` — every
character outside the replaced region is preserved and the region equals
the replacement text. -/
theorem C7_amended (buf search repl : List Char)
    (hocc : hasSub search buf = true) (hnd : '$' ∉ repl)
    (hs : normEol search = search) (hr : normEol repl = repl) :
    ∃ pre post, buf = pre ++ search ++ post ∧
      applyEdit buf ⟨String.mk search, String.mk repl⟩ = some (pre ++ repl ++ post) ∧
      jsReplaceFirst buf search repl = pre ++ repl ++ post ∧
      ∀ pre2 post2, buf = pre2 ++ search ++ post2 → pre.length ≤ pre2.length := by
  have hocc2 := hocc
  rw [hasSub] at hocc2
  obtain ⟨⟨b, a⟩, hba⟩ := Option.isSome_iff_exists.mp hocc2
  have hrep : jsReplaceFirst buf search repl = b ++ repl ++ a := by
    simp only [jsReplaceFirst, hba]
    rw [getSubst_no_dollar hnd]
  refine ⟨b, a, splitFirst_eq_append search buf b a hba, ?_, hrep,
    splitFirst_minimal search buf b a hba⟩
  have hcond : hasSub (normEol (String.mk search).data) buf = true := by
    show hasSub (normEol search) buf = true
    rw [hs]; exact hocc
  simp only [applyEdit, hcond, if_true]
  show some (jsReplaceFirst buf (normEol search) (normEol (String.mk repl).data)) = _
  rw [hs]
  show some (jsReplaceFirst buf search (normEol repl)) = _
  rw [hr, hrep]

/-- Witness for `C7_amended` replacing `a` by `b` in `xay`. -/
theorem C7_amended_witness :
    hasSub "a".data "xay".data = true ∧
    (∃ pre post, "xay".data = pre ++ "a".data ++ post ∧
      applyEdit "xay".data ⟨String.mk "a".data, String.mk "b".data⟩ =
        some (pre ++ "b".data ++ post) ∧
      jsReplaceFirst "xay".data "a".data "b".data = pre ++ "b".data ++ post ∧
      ∀ pre2 post2, "xay".data = pre2 ++ "a".data ++ post2 → pre.length ≤ pre2.length) :=
  ⟨by decide,
   C7_amended "xay".data "a".data "b".data (by decide) (by decide) (by decide) (by decide)⟩

/-- C9 counterexample: the claim says the persisted content has *all* CRLF
sequences replaced by LF, but the replacement is a single left-to-right
pass: persisting `CR CR LF LF` (empty edit list, `dryRun` false) writes
`CR LF LF`, which still contains a CRLF — the lone CR left as-is now sits
directly before the LF that replaced the original CRLF. -/
theorem C9_counterexample :
    (applyFileEdits (fun _ _ => "") "\r\r\n\n" [] false).newDisk = "\r\n\n" ∧
    (applyFileEdits (fun _ _ => "") "\r\r\n\n" [] false).wrote = true ∧
    hasSub ['\r', '\n'] "\r\r\n\n".data = true ∧
    hasSub ['\r', '\n'] "\r\n\n".data = true := by
  refine ⟨by decide, by decide, by decide, by decide⟩

/-- C9 amended: a succeeding `edit_file` with `dryRun` false persists the
edited version of the one-pass CRLF→LF normalization of the file content —
with the empty edit list the whole file is rewritten as exactly
`normalizeLineEndings` of its content, so on-disk bytes change in regions
no edit touched; a buffer with no CRLF at all (in particular one with only
lone CRs) is left untouched by the pass. -/
theorem C9_amended :
    (∀ (patch : String → String → String) (disk : String),
        (applyFileEdits patch disk [] false).newDisk = normalizeLineEndings disk ∧
        (applyFileEdits patch disk [] false).wrote = true)
    ∧ (∀ (patch : String → String → String) (disk : String) (edits : List EditOp)
        (buf : List Char),
        applyEditsLoop (normEol disk.data) edits = .ok buf →
        (applyFileEdits patch disk edits false).newDisk = String.mk buf ∧
        (applyFileEdits patch disk edits false).wrote = true)
    ∧ (∀ s : List Char, hasSub ['\r', '\n'] s = false → normEol s = s) := by
  refine ⟨?_, ?_, normEol_no_crlf⟩
  · intro patch disk
    simp [applyFileEdits, applyEditsLoop, normalizeLineEndings]
  · intro patch disk edits buf h
    simp [applyFileEdits, h]

/-- Witness for `C9_amended` on a file with one CRLF and one lone CR. -/
theorem C9_amended_witness :
    (applyFileEdits (fun _ _ => "") "a\r\nb\rc" [] false).newDisk =
      normalizeLineEndings "a\r\nb\rc" ∧
    normalizeLineEndings "a\r\nb\rc" = "a\nb\rc" ∧
    normEol "b\rc".data = "b\rc".data :=
  ⟨(C9_amended.1 (fun _ _ => "") "a\r\nb\rc").1, by decide,
   C9_amended.2.2 "b\rc".data (by decide)⟩

/-! ## Claim C6: the whitespace-tolerant strategy -/

/-- The claim's description of a window match at index `i`: the window
fits, and every search line equals its counterpart after trimming both. -/
def windowMatchesSpec (oldLines contentLines : List (List Char)) (i : Nat) : Prop :=
  i + oldLines.length ≤ contentLines.length ∧
  ∀ j, j < oldLines.length →
    jsTrim (oldLines.getD j []) = jsTrim (contentLines.getD (i + j) [])

theorem findFrom_spec (p : Nat → Bool) :
    ∀ (fuel i k : Nat), findFrom p i fuel = some k →
      i ≤ k ∧ k < i + fuel ∧ p k = true ∧ ∀ j, i ≤ j → j < k → p j = false := by
  intro fuel
  induction fuel with
  | zero => intro i k h; simp [findFrom] at h
  | succ n ih =>
    intro i k h
    simp only [findFrom] at h
    by_cases hp : p i
    · rw [if_pos hp] at h
      obtain rfl : i = k := by simpa using h
      exact ⟨le_refl i, by omega, hp, fun j h1 h2 => by omega⟩
    · rw [if_neg hp] at h
      obtain ⟨h1, h2, h3, h4⟩ := ih (i + 1) k h
      refine ⟨by omega, by omega, h3, ?_⟩
      intro j hj1 hj2
      rcases Nat.eq_or_lt_of_le hj1 with rfl | hlt
      · simpa using hp
      · exact h4 j (by omega) hj2

theorem lineMatch_iff : ∀ (os ws : List (List Char)), os.length ≤ ws.length →
    (lineMatch os ws = true ↔
      ∀ j, j < os.length → jsTrim (os.getD j []) = jsTrim (ws.getD j [])) := by
  intro os
  induction os with
  | nil => intro ws _; simp [lineMatch]
  | cons o os2 ih =>
    intro ws hlen
    cases ws with
    | nil => simp at hlen
    | cons w ws2 =>
      have hlen2 : os2.length ≤ ws2.length := by simpa using hlen
      have hstep : lineMatch (o :: os2) (w :: ws2) =
          ((jsTrim o == jsTrim w) && lineMatch os2 ws2) := rfl
      rw [hstep, Bool.and_eq_true]
      constructor
      · intro h j hj
        obtain ⟨h1, h2⟩ := h
        cases j with
        | zero => simpa [List.getD_cons_zero] using (beq_iff_eq.mp h1)
        | succ j2 =>
          have := (ih ws2 hlen2).mp h2 j2 (by simpa using hj)
          simpa [List.getD_cons_succ] using this
      · intro h
        refine ⟨beq_iff_eq.mpr (by simpa [List.getD_cons_zero] using h 0 (Nat.succ_pos _)), ?_⟩
        refine (ih ws2 hlen2).mpr ?_
        intro j hj
        have := h (j + 1) (by simp only [List.length_cons]; omega)
        simpa [List.getD_cons_succ] using this

theorem winAt_getD (l : List (List Char)) (i len j : Nat) (hj : j < len) :
    (winAt l i len).getD j [] = l.getD (i + j) [] := by
  simp [winAt, List.getD_eq_getElem?_getD, List.getElem?_take, hj, List.getElem?_drop]

theorem winMatch_iff (oldLines contentLines : List (List Char)) (i : Nat)
    (hle : i + oldLines.length ≤ contentLines.length) :
    (lineMatch oldLines (winAt contentLines i oldLines.length) = true) ↔
      ∀ j, j < oldLines.length →
        jsTrim (oldLines.getD j []) = jsTrim (contentLines.getD (i + j) []) := by
  have hlen : oldLines.length ≤ (winAt contentLines i oldLines.length).length := by
    simp only [winAt, List.length_take, List.length_drop]
    omega
  rw [lineMatch_iff _ _ hlen]
  constructor
  · intro h j hj
    rw [← winAt_getD contentLines i oldLines.length j hj]
    exact h j hj
  · intro h j hj
    rw [winAt_getD contentLines i oldLines.length j hj]
    exact h j hj

theorem reindentAux_getD (ind : List Char) (old : List (List Char)) :
    ∀ (l : List (List Char)) (j0 k : Nat), k < l.length →
      (reindentAux ind old j0 l).getD k [] = reindentLine ind old (j0 + k) (l.getD k []) := by
  intro l
  induction l with
  | nil => intro j0 k hk; simp at hk
  | cons x xs ih =>
    intro j0 k hk
    cases k with
    | zero => simp [reindentAux]
    | succ k2 =>
      simp only [reindentAux, List.getD_cons_succ]
      rw [ih (j0 + 1) k2 (by simpa using hk)]
      congr 1
      omega

/-- C6: (1) the scan returns the lowest window index matching the search
block under trimming of both sides; (2) replacement line 0 receives the
matched window's first line's leading indentation; (3) a later replacement
line receives that indentation plus the floored leading-whitespace-length
delta against the corresponding search line when both have leading
whitespace, and is used unmodified otherwise; (4) when the exact strategy
fails and the scan finds index `i`, `applyEdit` splices the re-indented
replacement lines over the matched window. -/
theorem C6_fuzzy_match_spec :
    (∀ (oldLines contentLines : List (List Char)) (i : Nat),
        findMatch oldLines contentLines = some i →
        windowMatchesSpec oldLines contentLines i ∧
          ∀ i2, i2 < i → ¬ windowMatchesSpec oldLines contentLines i2)
    ∧ (∀ (ind : List Char) (old newSrc : List (List Char)), newSrc ≠ [] →
        (reindent ind old newSrc).getD 0 [] = ind ++ trimStartJs (newSrc.getD 0 []))
    ∧ (∀ (ind : List Char) (old newSrc : List (List Char)) (k : Nat),
        0 < k → k < newSrc.length →
        (reindent ind old newSrc).getD k [] =
          (if leadingWs (old.getD k []) ≠ [] ∧ leadingWs (newSrc.getD k []) ≠ [] then
            ind ++ List.replicate ((leadingWs (newSrc.getD k [])).length -
              (leadingWs (old.getD k [])).length) ' ' ++ trimStartJs (newSrc.getD k [])
          else newSrc.getD k []))
    ∧ (∀ (buf : List Char) (e : EditOp) (i : Nat),
        hasSub (normEol e.oldText.data) buf = false →
        findMatch (splitNl (normEol e.oldText.data)) (splitNl buf) = some i →
        applyEdit buf e = some (joinNl (
          (splitNl buf).take i ++
          reindent (leadingWs ((splitNl buf).getD i [])) (splitNl (normEol e.oldText.data))
            (splitNl (normEol e.newText.data)) ++
          (splitNl buf).drop (i + (splitNl (normEol e.oldText.data)).length)))) := by
  refine ⟨?_, ?_, ?_, ?_⟩
  · intro oldLines contentLines i h
    simp only [findMatch] at h
    by_cases hle : oldLines.length ≤ contentLines.length
    · rw [if_pos hle] at h
      obtain ⟨h1, h2, h3, h4⟩ := findFrom_spec _ _ _ _ h
      have hib : i + oldLines.length ≤ contentLines.length := by omega
      refine ⟨⟨hib, (winMatch_iff _ _ _ hib).mp h3⟩, ?_⟩
      intro i2 hi2 hspec
      obtain ⟨hb2, hj2⟩ := hspec
      have := (winMatch_iff _ _ _ hb2).mpr hj2
      rw [h4 i2 (by omega) hi2] at this
      exact Bool.false_ne_true this
    · rw [if_neg hle] at h
      exact absurd h (by simp)
  · intro ind old newSrc hne
    cases newSrc with
    | nil => exact absurd rfl hne
    | cons x xs => simp [reindent, reindentAux, reindentLine]
  · intro ind old newSrc k hk0 hk
    rw [reindent, reindentAux_getD ind old newSrc 0 k hk]
    simp only [Nat.zero_add]
    rw [reindentLine, if_neg (by omega : ¬ k = 0)]
  · intro buf e i h1 h2
    simp [applyEdit, h1, h2]

/-- Witness for `C6_fuzzy_match_spec`: an edit whose four-space-indented
search text differs from the buffer line `  hello` only in leading
whitespace is not an exact substring, matches via the line-block strategy
at index 1, and keeps the original two-space indent. -/
theorem C6_fuzzy_match_spec_witness :
    applyEdit "x\n  hello\ny".data ⟨"    hello", "world"⟩ = some ("x\n  world\ny".data) := by
  have h := C6_fuzzy_match_spec.2.2.2 "x\n  hello\ny".data ⟨"    hello", "world"⟩ 1
    (by decide) (by decide)
  rw [h]
  decide

/-! ## Claims C8 and C10: exclusion patterns in `searchFiles` -/

/-- Any segment list with `build` at a non-final position matches the
wrapped exclude pattern `**/build/**`. -/
theorem matchOne_globstar_mid :
    ∀ (segs : List (List Char)) (i : Nat),
      segs.getD i [] = "build".data → i + 1 < segs.length →
      matchOne [['*', '*'], "build".data, ['*', '*']] segs = true := by
  intro segs
  induction segs with
  | nil => intro i _ hlen; simp at hlen
  | cons s rest ih =>
    intro i hget hlen
    cases i with
    | zero =>
      simp only [List.getD_cons_zero] at hget
      subst hget
      cases rest with
      | nil => simp at hlen
      | cons r rs =>
        have hstep : matchOne [['*', '*'], "build".data, ['*', '*']] ("build".data :: r :: rs) =
            (matchOne ["build".data, ['*', '*']] ("build".data :: r :: rs) ||
              matchStarSegs (matchOne ["build".data, ['*', '*']]) (r :: rs)) := rfl
        have h2 : matchOne ["build".data, ['*', '*']] ("build".data :: r :: rs) = true := rfl
        rw [hstep, h2]
        simp
    | succ i2 =>
      have hget2 : rest.getD i2 [] = "build".data := by simpa using hget
      have hlen2 : i2 + 1 < rest.length := by simp only [List.length_cons] at hlen; omega
      have hih := ih i2 hget2 hlen2
      cases rest with
      | nil => simp at hlen2
      | cons r rs =>
        have hstep : matchOne [['*', '*'], "build".data, ['*', '*']] (s :: r :: rs) =
            (matchOne ["build".data, ['*', '*']] (s :: r :: rs) ||
              matchStarSegs (matchOne ["build".data, ['*', '*']]) (r :: rs)) := rfl
        have hstep2 : matchStarSegs (matchOne ["build".data, ['*', '*']]) (r :: rs) =
            matchOne [['*', '*'], "build".data, ['*', '*']] (r :: rs) := rfl
        rw [hstep, hstep2, hih]
        simp

/-- A relative path with `build` as a non-final segment is excluded by the
exclude pattern `build` (wrapped to `**/build/**`). -/
theorem shouldExclude_build (rel : String) (i : Nat)
    (hget : (splitCh '/' rel.data).getD i [] = "build".data)
    (hlen : i + 1 < (splitCh '/' rel.data).length) :
    shouldExclude ["build"] rel = true := by
  have hglob : globPatternOf "build" = "**/build/**" := by decide
  have hpat : splitCh '/' "**/build/**".data = [['*', '*'], "build".data, ['*', '*']] := by decide
  simp only [shouldExclude, List.any_cons, List.any_nil, Bool.or_false, hglob, minimatchDot, hpat]
  exact matchOne_globstar_mid (splitCh '/' rel.data) i hget hlen

theorem getD_append_self (l1 l2 : List (List Char)) :
    (l1 ++ l2).getD l1.length [] = l2.getD 0 [] := by
  induction l1 with
  | nil => rfl
  | cons x xs ih => simpa using ih

/-- An excluded entry contributes nothing: the `continue` fires before the
name test and before the recursion, so its whole subtree is skipped. -/
theorem walkEntry_excluded (valid : String → Bool) (pattern : String) (excl : List String)
    (t : FsTree) (fullPath rel : String) (h : shouldExclude excl rel = true) :
    walkEntry valid pattern excl t fullPath rel = [] := by
  cases hv : valid fullPath <;> simp [walkEntry, hv, h]

/-- C8 amended: with exclude pattern `build`, (1) an entry whose relative
path matches an exclude pattern contributes nothing at all — it is neither
returned nor recursed into; (2) every child of a directory whose relative
path ends in a `build` segment is excluded, so nothing strictly below a
`build` directory is ever returned.  (The `build` directory itself is
*not* excluded — `**/build/**` does not match `build` — and is returned
when its name contains the search pattern, per the counterexample.) -/
theorem C8_amended :
    (∀ (valid : String → Bool) (pattern : String) (excl : List String) (t : FsTree)
        (fullPath rel : String), shouldExclude excl rel = true →
        walkEntry valid pattern excl t fullPath rel = [])
    ∧ (∀ (valid : String → Bool) (pattern : String) (children : List FsTree)
        (dirPath dirRel : String),
        (splitCh '/' dirRel.data).getLast? = some ("build".data) →
        (∀ c ∈ children, ('/' : Char) ∉ (entryName c).data) →
        walkChildren valid pattern ["build"] children dirPath dirRel = []) := by
  refine ⟨fun valid pattern excl t fullPath rel h =>
    walkEntry_excluded valid pattern excl t fullPath rel h, ?_⟩
  intro valid pattern children dirPath dirRel hlast hnames
  induction children with
  | nil => simp [walkChildren]
  | cons c rest ih =>
    simp only [walkChildren]
    have hcn : ('/' : Char) ∉ (entryName c).data := hnames c (List.mem_cons_self c rest)
    have hne : dirRel ≠ "" := by
      intro heq
      rw [heq] at hlast
      exact absurd hlast (by decide)
    have hexcl : shouldExclude ["build"] (childRel dirRel (entryName c)) = true := by
      rw [childRel, if_neg hne]
      have hdata : (dirRel ++ "/" ++ entryName c).data =
          dirRel.data ++ '/' :: (entryName c).data := by
        simp [String.data_append]
      have hsegs : splitCh '/' (dirRel ++ "/" ++ entryName c).data =
          splitCh '/' dirRel.data ++ [(entryName c).data] := by
        rw [hdata, splitCh_append, splitCh_no_sep _ _ hcn]
      obtain ⟨init, hinit⟩ := List.getLast?_eq_some_iff.mp hlast
      apply shouldExclude_build _ init.length
      · rw [hsegs, hinit, List.append_assoc, getD_append_self]
        rfl
      · rw [hsegs, hinit]
        simp only [List.length_append, List.length_cons, List.length_nil]
        omega
    rw [walkEntry_excluded valid pattern ["build"] c _ _ hexcl,
      ih (fun c hc => hnames c (List.mem_cons_of_mem _ hc))]
    rfl

/-- Witness for `C8_amended`: the children of the excluded-named directory
`build` (relative path `build`) are all skipped. -/
theorem C8_amended_witness :
    walkChildren (fun _ => true) "inner" ["build"] [.file "inner.txt"] "/root/build" "build" =
      [] :=
  C8_amended.2 (fun _ => true) "inner" [.file "inner.txt"] "/root/build" "build"
    (by decide) (by decide)

/-- C8 counterexample: the claim says no returned path's relative path
contains a `build` segment, the `build` directory itself included.  But
`**/build/**` does not match the bare segment `build`, so the `build`
directory is not excluded: searching for `build` with exclude pattern
`build` returns the `build` directory itself (while its contents are
excluded). -/
theorem C8_counterexample :
    searchFiles (fun _ => true) "/root" "build" ["build"]
      [.dir "build" [.file "inner.txt"]] = ["/root/build"] ∧
    minimatchDot "build" (globPatternOf "build") = false := by
  refine ⟨by decide, by decide⟩

/-- C10: (1) a pattern containing `*` is used as-is against the relative
path; (2) a pattern without `*` is wrapped to `**/<pattern>/**`; (3) the
as-is single-segment pattern `*.log` can only match a relative path of
exactly one segment — entries at depth 1 — so `.log` files in
subdirectories are not excluded; (4) concretely, `a.log` is excluded and
`sub/a.log` is not. -/
theorem C10_star_exclude :
    (∀ (p rel : String), strContainsChar p '*' = true →
        shouldExclude [p] rel = minimatchDot rel p)
    ∧ (∀ (p rel : String), strContainsChar p '*' = false →
        shouldExclude [p] rel = minimatchDot rel ("**/" ++ p ++ "/**"))
    ∧ (∀ rel : String, shouldExclude ["*.log"] rel = true →
        [] ∉ splitCh '/' rel.data → (splitCh '/' rel.data).length = 1)
    ∧ shouldExclude ["*.log"] "a.log" = true
    ∧ shouldExclude ["*.log"] "sub/a.log" = false := by
  refine ⟨?_, ?_, ?_, by decide, by decide⟩
  · intro p rel h
    simp [shouldExclude, globPatternOf, h]
  · intro p rel h
    simp [shouldExclude, globPatternOf, h]
  · intro rel h hni
    have hglob : globPatternOf "*.log" = "*.log" := by decide
    have hsplitpat : splitCh '/' "*.log".data = ["*.log".data] := by decide
    simp only [shouldExclude, List.any_cons, List.any_nil, Bool.or_false, hglob,
      minimatchDot, hsplitpat] at h
    cases hsegs : splitCh '/' rel.data with
    | nil => exact absurd hsegs (splitCh_ne_nil _ _)
    | cons s fs =>
      rw [hsegs] at h hni
      have hexp : matchOne ["*.log".data] (s :: fs) =
          (globSeg "*.log".data s && matchOne [] fs) := rfl
      rw [hexp, Bool.and_eq_true] at h
      obtain ⟨_, htail⟩ := h
      cases fs with
      | nil => simp
      | cons f2 fs2 =>
        have hexp2 : matchOne [] (f2 :: fs2) = (f2.isEmpty && fs2.isEmpty) := rfl
        rw [hexp2, Bool.and_eq_true] at htail
        obtain ⟨hf2, _⟩ := htail
        exfalso
        apply hni
        have hf2e : f2 = [] := by simpa using hf2
        exact List.mem_cons_of_mem _ (hf2e ▸ List.mem_cons_self f2 fs2)

/-- Witness for `C10_star_exclude`: the excluded `a.log` sits at depth 1. -/
theorem C10_star_exclude_witness :
    shouldExclude ["*.log"] "a.log" = true ∧ (splitCh '/' "a.log".data).length = 1 :=
  ⟨by decide, C10_star_exclude.2.2.1 "a.log" (by decide) (by decide)⟩

end Mcp
